import Mathlib

/-!
Verification of the OpenTune DSP core: a shallow embedding of the
`MagicRingBuffer` (mrbr.rs), the command protocol (dspapi.rs) and the
engine/audio-callback logic (dspengine.rs), together with proofs of the
spec's claims about them.
-/

set_option maxHeartbeats 1000000

namespace OpenTune

/-- Audio samples are `f32` values that the core only ever copies or
zero-fills (no arithmetic is ever performed on a sample), so a sample is
modeled as an integer, `0` standing for the exact zero sample `0.0` written
by the underflow fill. -/
abbrev Sample := Int

/-- `usize::is_power_of_two` from the Rust standard library, used by
`MagicRingBuffer::new`; its documented behaviour is: true iff the value
equals `2^k` for some `k` (so `0` is not a power of two).  Implemented here
by repeated halving; `isPowerOfTwo_iff_pow` below proves the documented
characterisation. -/
def isPowerOfTwo : Nat → Bool
  | 0 => false
  | 1 => true
  | n + 2 => (n + 2) % 2 == 0 && isPowerOfTwo ((n + 2) / 2)

/-- `MagicRingBuffer` (mrbr.rs).  The source maps one physical buffer of
`capacity` samples twice into a contiguous `2·capacity` virtual region; the
physical buffer is modeled by `data` (`data.length = capacity`), and virtual
offset `v` (for `v < 2·capacity`) aliases physical offset `v % capacity`.
`read_idx` and `write_idx` are the monotonically increasing sample counters;
the source keeps them in `usize` and computes `w.wrapping_sub(r)`, which
equals `w - r` exactly while `0 ≤ w - r < 2^64`, which the capacity
invariant (claim C1) guarantees, so they are modeled as unbounded `Nat`. -/
structure MagicRingBuffer where
  data : List Sample
  capacity : Nat
  mask : Nat
  read_idx : Nat
  write_idx : Nat
deriving DecidableEq

/-- `MagicRingBuffer::new`: rejects any capacity that is not a power of two;
otherwise returns a buffer with both indices zero whose fresh shared-memory
mapping is zero-initialised (`ftruncate` extends the object with zero
bytes).  `io::Result` is modeled as `Except String`. -/
def MagicRingBuffer.new (capacity : Nat) : Except String MagicRingBuffer :=
  if !(isPowerOfTwo capacity) then
    Except.error "Capacity must be power of 2"
  else
    Except.ok { data := List.replicate capacity 0, capacity := capacity,
                mask := capacity - 1, read_idx := 0, write_idx := 0 }

/-- `MagicRingBuffer::write_slice`: grants a contiguous region of exactly
`len` samples starting at virtual offset `write_idx &&& mask`, or `None`
when `capacity - (w - r) < len`.  The call itself mutates nothing (the
index updates happen only in `commit_write`), so the model is a pure
function returning the granted region as (start offset, length). -/
def MagicRingBuffer.write_slice (m : MagicRingBuffer) (len : Nat) :
    Option (Nat × Nat) :=
  if m.capacity - (m.write_idx - m.read_idx) < len then none
  else some (m.write_idx &&& m.mask, len)

/-- `MagicRingBuffer::commit_write`: advances the write index by `len`. -/
def MagicRingBuffer.commit_write (m : MagicRingBuffer) (len : Nat) :
    MagicRingBuffer :=
  { m with write_idx := m.write_idx + len }

/-- `MagicRingBuffer::read_slice`: the readable view, `w - r` contiguous
samples of the doubled region starting at virtual offset
`read_idx &&& mask`.  (The source's early return of `&[]` when
`available == 0` coincides with taking `0` samples.) -/
def MagicRingBuffer.read_slice (m : MagicRingBuffer) : List Sample :=
  ((m.data ++ m.data).drop (m.read_idx &&& m.mask)).take
    (m.write_idx - m.read_idx)

/-- `MagicRingBuffer::consume`: advances the read index by `len`. -/
def MagicRingBuffer.consume (m : MagicRingBuffer) (len : Nat) :
    MagicRingBuffer :=
  { m with read_idx := m.read_idx + len }

/-- Physical effect of copying a sample list into the doubly mapped region
starting at virtual offset `start`: sample `i` lands at physical offset
`(start + i) % cap`, because virtual offset `v` aliases physical `v % cap`.
This models `copy_from_slice` into a granted write region. -/
def writeAt (cap : Nat) (data : List Sample) (start : Nat) :
    List Sample → List Sample
  | [] => data
  | x :: xs => writeAt cap (data.set (start % cap) x) (start + 1) xs

/-- Copy `xs` into the granted region of the buffer that starts at virtual
offset `start` (the state change performed by the producer between
`write_slice` and `commit_write`). -/
def MagicRingBuffer.write_at (m : MagicRingBuffer) (start : Nat)
    (xs : List Sample) : MagicRingBuffer :=
  { m with data := writeAt m.capacity m.data start xs }

/-- `DspEngine::push_samples` acting on the ring buffer: request a write
slice of matching length, copy the samples in, commit, and return the
number of samples accepted (`0` when no slice was granted). -/
def push_samples (m : MagicRingBuffer) (samples : List Sample) :
    Nat × MagicRingBuffer :=
  match m.write_slice samples.length with
  | some g => (samples.length,
      (m.write_at g.1 samples).commit_write samples.length)
  | none => (0, m)

/-- Stage 2 of the audio callback (dspengine.rs lines 113-125): read the
available samples, copy the overlap `len = min output.len() available.len()`
into the hardware output, zero-fill the shortfall, and consume exactly the
amount copied. -/
def callback_audio (rb : MagicRingBuffer) (output : List Sample) :
    List Sample × MagicRingBuffer :=
  let available := rb.read_slice
  let len := min output.length available.length
  let out1 := available.take len ++ output.drop len
  let out2 := if len < output.length then
      out1.take len ++ List.replicate (output.length - len) (0 : Sample)
    else out1
  (out2, rb.consume len)

/-- `StatState` (dspapi.rs). -/
inductive StatState
  | ACTIVE
  | INACTIVE
  | PAUSED
deriving DecidableEq

/-- `Command` (dspapi.rs): immutable message from the control thread; the
`payload` byte blob is a list of bytes modeled as naturals. -/
structure Command where
  command_id : Nat
  description : String
  payload_size : Nat
  payload : List Nat
  node_id : Nat
  param_id : Nat
  port_id : Nat
  stat : StatState
deriving DecidableEq

/-- `Command::new` (dspapi.rs): `payload_size` is set to the payload
length. -/
def Command.new (command_id : Nat) (description : String)
    (payload : List Nat) (node_id param_id port_id : Nat)
    (stat : StatState) : Command :=
  { command_id := command_id, description := description,
    payload_size := payload.length, payload := payload,
    node_id := node_id, param_id := param_id, port_id := port_id,
    stat := stat }

/-- A Rack entry.  `AudioNode` is a trait object; the model keeps the
node's stable id and name and records every forwarded
`set_param(param_id, payload)` call in `param_log`, which is the only node
mutation the engine command path ever performs. -/
structure RNode where
  id : Nat
  name : String
  param_log : List (Nat × List Nat)
deriving DecidableEq

/-- `AudioNode::set_param` as observed at the Rack boundary: the call with
its arguments is forwarded to (recorded on) the node. -/
def RNode.set_param (n : RNode) (param_id : Nat) (payload : List Nat) :
    RNode :=
  { n with param_log := (param_id, payload) :: n.param_log }

/-- Body of the opcode-2 handler (dspengine.rs lines 101-107):
`nodes.iter_mut().find(|n| n.get_id() == cmd.node_id)` followed by
`set_param` on the found node — the first matching node is updated in
place, every other node and the order of the Rack are untouched. -/
def applySetParam (node_id param_id : Nat) (payload : List Nat) :
    List RNode → List RNode
  | [] => []
  | n :: rest =>
      if n.id == node_id then n.set_param param_id payload :: rest
      else n :: applySetParam node_id param_id payload rest

/-- Which mutexes are contended (held by another thread) during one audio
callback cycle. -/
structure LockContention where
  in_queue : Bool
  pmanager : Bool
  rack : Bool
deriving DecidableEq

/-- `Mutex::lock()` blocks until the mutex is free, so a contended mutex
still yields the lock (the `Err` case of `lock()` is poisoning, which the
source treats as a skip and which cannot arise here). -/
def blockingLockOk (_contended : Bool) : Bool := true

/-- `Mutex::try_lock()` fails exactly when the mutex is contended. -/
def tryLockOk (contended : Bool) : Bool := !contended

/-- One command application inside the drain loop of the audio callback
(dspengine.rs lines 91-109).  Opcode 0 acquires `PMANAGER` and then the
Rack with blocking `lock()` calls and appends the created node; opcode 2
acquires the Rack with a blocking `lock()` call and forwards the parameter
to the first node whose id matches; all other opcodes are ignored.
`create` stands for the external `PluginManager::create_node`
collaborator. -/
def applyCommand (create : String → Option RNode) (ct : LockContention)
    (rack : List RNode) (cmd : Command) : List RNode :=
  match cmd.command_id with
  | 0 =>
      if blockingLockOk ct.pmanager then
        match create cmd.description with
        | some node =>
            if blockingLockOk ct.rack then rack ++ [node] else rack
        | none => rack
      else rack
  | 2 =>
      if blockingLockOk ct.rack then
        applySetParam cmd.node_id cmd.param_id cmd.payload rack
      else rack
  | _ => rack

/-- Section 1 of the audio callback (dspengine.rs lines 89-111): a
non-blocking `try_lock` on the inbound queue; on success every queued
command is drained and applied in FIFO order, on contention nothing is
drained and the queue is left intact.  Returns the remaining queue and the
resulting Rack. -/
def drainAndApply (create : String → Option RNode) (ct : LockContention)
    (queue : List Command) (rack : List RNode) :
    List Command × List RNode :=
  if tryLockOk ct.in_queue then
    ([], queue.foldl (applyCommand create ct) rack)
  else (queue, rack)

/-- Events of the control-plane/audio-callback interaction: a control
thread sends a command (`Command::send` pushes it to the back of the
queue), or one callback cycle runs with a given contention pattern. -/
inductive CtlEvent
  | send (c : Command)
  | cycle (ct : LockContention)

/-- Queue, Rack, and the ghost log of commands applied so far (in
application order). -/
structure CtlState where
  queue : List Command
  rack : List RNode
  applied : List Command

/-- One step of the control/callback system: `send` appends to the queue;
`cycle` runs the drain of `drainAndApply` and logs what was applied. -/
def ctlStep (create : String → Option RNode) (s : CtlState) :
    CtlEvent → CtlState
  | .send c => { s with queue := s.queue ++ [c] }
  | .cycle ct =>
      if tryLockOk ct.in_queue then
        { queue := [],
          rack := s.queue.foldl (applyCommand create ct) s.rack,
          applied := s.applied ++ s.queue }
      else s

/-- The commands sent during a list of events, in the order sent. -/
def sentCommands : List CtlEvent → List Command
  | [] => []
  | .send c :: es => c :: sentCommands es
  | .cycle _ :: es => sentCommands es

/-- `DspEngine` (dspengine.rs): the fields `stop` can possibly touch.  The
`engine_id`/`description` fields are constants and omitted.  Samples flow
through `buffer`; the inbound commands through `command_queue`; the Rack is
`nodes`. -/
structure DspEngine where
  is_running : Bool
  sample_rate : Nat
  buffer_size : Nat
  buffer : MagicRingBuffer
  command_queue : List Command
  nodes : List RNode
deriving DecidableEq

/-- The engine together with the global `ACTIVE_STREAM` slot that holds the
hardware stream handle (opaque, so modeled as `Option Unit`). -/
structure EngineWorld where
  engine : DspEngine
  active_stream : Option Unit
deriving DecidableEq

/-- `DspEngine::stop` (dspengine.rs lines 154-160): clear the global stream
slot (dropping the stream) and clear the running flag; nothing else is
touched. -/
def EngineWorld.stop (w : EngineWorld) : EngineWorld :=
  { engine := { w.engine with is_running := false }, active_stream := none }

/-- Well-formedness of a ring buffer as constructed by
`MagicRingBuffer::new` and maintained by the SPSC protocol: the physical
store has `capacity` samples, the mask is `capacity - 1`, the capacity is a
power of two, and the indices satisfy the capacity invariant. -/
structure Wf (m : MagicRingBuffer) : Prop where
  hlen : m.data.length = m.capacity
  hmask : m.mask = m.capacity - 1
  hpow : ∃ k, m.capacity = 2 ^ k
  hle : m.read_idx ≤ m.write_idx
  hcap : m.write_idx - m.read_idx ≤ m.capacity

/-- Protocol-level operations on the ring buffer, as performed by a legal
SPSC client: `wslice xs` requests a write region for the samples `xs` (the
request may be refused), `commit` copies the staged samples into the region
granted by the matching `wslice` and commits them, `rslice` reads the
available view, and `consume len` releases `len` samples of the view
returned by the most recent `rslice`. -/
inductive RingOp
  | wslice (xs : List Sample)
  | commit
  | rslice
  | consume (len : Nat)
deriving DecidableEq

/-- Observable result of one ring operation. -/
inductive RingObs
  | granted (ok : Bool)
  | committed
  | seen (xs : List Sample)
  | consumed
deriving DecidableEq

/-- A `MagicRingBuffer` together with the client-side bookkeeping that the
legality side conditions of the claims refer to: `pending` is the region
granted by the most recent successful `write_slice` and not yet committed
(start offset plus the samples staged for it), and `readable` is the
not-yet-consumed remainder of the length returned by the most recent
`read_slice`. -/
structure MSession where
  buf : MagicRingBuffer
  pending : Option (Nat × List Sample)
  readable : Nat
deriving DecidableEq

/-- Fresh session on a fresh buffer of the given capacity (the state built
by `MagicRingBuffer::new` when the capacity check passes). -/
def MSession.init (c : Nat) : MSession :=
  { buf := { data := List.replicate c 0, capacity := c, mask := c - 1,
             read_idx := 0, write_idx := 0 },
    pending := none, readable := 0 }

/-- One legal protocol step on the magic ring buffer.  `none` means the
operation violates its side condition (a `commit` with no granted region,
or a `consume` beyond the most recent `read_slice`); a refused
`write_slice` is a legal no-op that observes `granted false`. -/
def MSession.step (s : MSession) : RingOp → Option (RingObs × MSession)
  | .wslice xs =>
      match s.buf.write_slice xs.length with
      | some g => some (.granted true, { s with pending := some (g.1, xs) })
      | none => some (.granted false, s)
  | .commit =>
      match s.pending with
      | some (start, xs) =>
          some (.committed,
            { s with buf := (s.buf.write_at start xs).commit_write xs.length,
                     pending := none })
      | none => none
  | .rslice =>
      some (.seen s.buf.read_slice,
        { s with readable := s.buf.read_slice.length })
  | .consume len =>
      if len ≤ s.readable then
        some (.consumed,
          { s with buf := s.buf.consume len, readable := s.readable - len })
      else none

/-- Run a list of protocol steps, collecting the observations. -/
def MSession.run (s : MSession) : List RingOp → Option (List RingObs × MSession)
  | [] => some ([], s)
  | op :: ops =>
      (s.step op).bind fun p =>
        (p.2.run ops).map fun q => (p.1 :: q.1, q.2)

/-- Modelled from the spec: the naive reference ring buffer with modular
indexing that claim C7 compares the magic buffer against ("yields the exact
same bytes as an equivalent non-wrapping sequence").  The store is a plain
array of `capacity` samples addressed as `index % capacity`, with the same
monotone write/read counters; there is no doubled mapping and no mask. -/
structure RefRing where
  capacity : Nat
  store : List Sample
  w : Nat
  r : Nat
deriving DecidableEq

/-- Reference read: the `w - r` unread samples, sample `i` fetched from
physical offset `(r + i) % capacity`. -/
def RefRing.readList (b : RefRing) : List Sample :=
  (List.range (b.w - b.r)).map (fun i => b.store.getD ((b.r + i) % b.capacity) 0)

/-- Reference write-and-commit: sample `i` stored at physical offset
`(w + i) % capacity`, then the write counter advanced. -/
def RefRing.modWrite (b : RefRing) (xs : List Sample) : RefRing :=
  { b with store := writeAt b.capacity b.store b.w xs, w := b.w + xs.length }

/-- Reference-side session: same client bookkeeping as `MSession`. -/
structure RSession where
  buf : RefRing
  pending : Option (List Sample)
  readable : Nat
deriving DecidableEq

/-- Fresh reference session of the given capacity. -/
def RSession.init (c : Nat) : RSession :=
  { buf := { capacity := c, store := List.replicate c 0, w := 0, r := 0 },
    pending := none, readable := 0 }

/-- One legal protocol step on the reference ring buffer: a write request
for `xs` is granted iff the free room `capacity - (w - r)` is at least
`xs.length`; the rest mirrors `MSession.step` with modular indexing. -/
def RSession.step (s : RSession) : RingOp → Option (RingObs × RSession)
  | .wslice xs =>
      if s.buf.capacity - (s.buf.w - s.buf.r) < xs.length then
        some (.granted false, s)
      else some (.granted true, { s with pending := some xs })
  | .commit =>
      match s.pending with
      | some xs =>
          some (.committed, { s with buf := s.buf.modWrite xs, pending := none })
      | none => none
  | .rslice =>
      some (.seen s.buf.readList, { s with readable := s.buf.readList.length })
  | .consume len =>
      if len ≤ s.readable then
        some (.consumed,
          { s with buf := { s.buf with r := s.buf.r + len },
                   readable := s.readable - len })
      else none

/-- Run a list of protocol steps on the reference buffer. -/
def RSession.run (s : RSession) : List RingOp → Option (List RingObs × RSession)
  | [] => some ([], s)
  | op :: ops =>
      (s.step op).bind fun p =>
        (p.2.run ops).map fun q => (p.1 :: q.1, q.2)

/-- Invariant of a legal magic-buffer session: the buffer is well formed,
a pending grant starts at the current write offset and fits in the free
room, and the consumable budget never exceeds the unread count. -/
structure SInv (s : MSession) : Prop where
  wf : Wf s.buf
  pend : ∀ st xs, s.pending = some (st, xs) →
    st = s.buf.write_idx &&& s.buf.mask ∧
    (s.buf.write_idx - s.buf.read_idx) + xs.length ≤ s.buf.capacity
  rdl : s.readable ≤ s.buf.write_idx - s.buf.read_idx

/-- Simulation relation between a magic-buffer session and the reference
modular session: same capacity, identical physical store, identical
monotone indices, and matching client bookkeeping. -/
structure Sim (ms : MSession) (rs : RSession) : Prop where
  inv : SInv ms
  hcap : rs.buf.capacity = ms.buf.capacity
  hstore : rs.buf.store = ms.buf.data
  hw : rs.buf.w = ms.buf.write_idx
  hr : rs.buf.r = ms.buf.read_idx
  hpend : rs.pending = ms.pending.map Prod.snd
  hread : rs.readable = ms.readable

/-- The spec's wrap-correctness scenario on a capacity-16 buffer: write 10
samples, read and consume all 10, then write 12 samples that cross the
physical end of the storage, read and consume them. -/
def wrapOps : List RingOp :=
  [RingOp.wslice [1, 2, 3, 4, 5, 6, 7, 8, 9, 10], RingOp.commit,
   RingOp.rslice, RingOp.consume 10,
   RingOp.wslice [11, 12, 13, 14, 15, 16, 17, 18, 19, 20, 21, 22],
   RingOp.commit, RingOp.rslice, RingOp.consume 12]

/-! ### Helper lemmas -/

/-- Documented characterisation of `usize::is_power_of_two`. -/
theorem isPowerOfTwo_iff_pow (n : Nat) :
    isPowerOfTwo n = true ↔ ∃ k, n = 2 ^ k := by
  induction n using Nat.strong_induction_on with
  | _ n ih =>
    match n with
    | 0 =>
        refine ⟨fun h => absurd h (by simp [isPowerOfTwo]), ?_⟩
        rintro ⟨k, hk⟩
        have h2 : 0 < 2 ^ k := pow_pos (by omega) k
        omega
    | 1 => exact ⟨fun _ => ⟨0, rfl⟩, fun _ => by simp [isPowerOfTwo]⟩
    | n + 2 =>
        simp only [isPowerOfTwo, Bool.and_eq_true, beq_iff_eq]
        rw [ih ((n + 2) / 2) (by omega)]
        constructor
        · rintro ⟨heven, j, hj⟩
          refine ⟨j + 1, ?_⟩
          have := pow_succ 2 j
          omega
        · rintro ⟨k, hk⟩
          match k with
          | 0 => omega
          | j + 1 =>
            rw [pow_succ] at hk
            exact ⟨by omega, j, by omega⟩

/-- Reading a window of length `n ≤ c` anywhere in the doubled region is
reading the physical buffer at modular offsets: the double-mapping trick. -/
theorem doubled_window (l : List Sample) (d : Sample) (c a n : Nat)
    (hl : l.length = c) (ha : a < c) (hn : n ≤ c) :
    ((l ++ l).drop a).take n =
      (List.range n).map (fun i => l.getD ((a + i) % c) d) := by
  have hc : 0 < c := by omega
  apply List.ext_getElem
  · simp only [List.length_take, List.length_drop, List.length_append,
      List.length_map, List.length_range, hl]
    omega
  · intro i h1 h2
    have hi : i < n := by
      simpa using h2
    rw [List.getElem_take, List.getElem_drop, List.getElem_map,
      List.getElem_range]
    have hmod : (a + i) % c < c := Nat.mod_lt _ hc
    rw [List.getD_eq_getElem l d (by omega)]
    by_cases hlt : a + i < c
    · rw [List.getElem_append_left (by omega)]
      simp only [Nat.mod_eq_of_lt hlt]
    · push_neg at hlt
      rw [List.getElem_append_right (by omega)]
      have : (a + i) % c = a + i - c := by
        rw [Nat.mod_eq_sub_mod (by omega), Nat.mod_eq_of_lt (by omega)]
      simp only [this, hl]

/-- `writeAt` never changes the length of the store. -/
theorem writeAt_length (cap : Nat) (data : List Sample) (start : Nat)
    (xs : List Sample) : (writeAt cap data start xs).length = data.length := by
  induction xs generalizing data start with
  | nil => rfl
  | cons x xs ih =>
      rw [writeAt, ih, List.length_set]

/-- Physical offsets not written by `writeAt` keep their old sample. -/
theorem writeAt_getD_untouched (cap : Nat) (data : List Sample) (start : Nat)
    (xs : List Sample) (j : Nat) (d : Sample)
    (hj : ∀ i, i < xs.length → (start + i) % cap ≠ j) :
    (writeAt cap data start xs).getD j d = data.getD j d := by
  induction xs generalizing data start with
  | nil => rfl
  | cons x xs ih =>
      have hstep : ∀ i, i < xs.length → (start + 1 + i) % cap ≠ j := by
        intro i hi
        have h2 := hj (i + 1) (by simp only [List.length_cons]; omega)
        rw [show start + (i + 1) = start + 1 + i from by omega] at h2
        exact h2
      rw [writeAt, ih _ (start + 1) hstep]
      have hne : start % cap ≠ j := by
        have h0 := hj 0 (by simp)
        simpa using h0
      by_cases hjl : j < data.length
      · rw [List.getD_eq_getElem _ d (by rw [List.length_set]; exact hjl),
          List.getD_eq_getElem _ d hjl]
        exact List.getElem_set_ne hne _
      · have hge : data.length ≤ j := Nat.le_of_not_lt hjl
        rw [List.getD_eq_default _ d (by rw [List.length_set]; exact hge),
          List.getD_eq_default _ d hge]

/-- Physical offsets written by `writeAt` hold the new samples (the write
window never self-overlaps while `xs.length ≤ cap`). -/
theorem writeAt_getD_hit (cap : Nat) (data : List Sample) (start : Nat)
    (xs : List Sample) (i : Nat) (d : Sample)
    (hlen : xs.length ≤ cap) (hi : i < xs.length)
    (hdata : data.length = cap) :
    (writeAt cap data start xs).getD ((start + i) % cap) d = xs.getD i d := by
  induction xs generalizing data start i with
  | nil => exact absurd hi (by simp)
  | cons x xs ih =>
      have hlc : xs.length + 1 ≤ cap := by
        simpa [List.length_cons] using hlen
      have hc : 0 < cap := by omega
      match i with
      | 0 =>
          have huntouched : ∀ i', i' < xs.length →
              (start + 1 + i') % cap ≠ (start + 0) % cap := by
            intro i' hi' heq
            have hmod : start + (1 + i') ≡ start + 0 [MOD cap] := by
              show (start + (1 + i')) % cap = (start + 0) % cap
              rw [show start + (1 + i') = start + 1 + i' from by omega]
              exact heq
            have hdvd : cap ∣ 1 + i' :=
              Nat.modEq_zero_iff_dvd.mp
                ((Nat.ModEq.refl start).add_left_cancel hmod)
            have hbig : cap ≤ 1 + i' := Nat.le_of_dvd (by omega) hdvd
            omega
          rw [writeAt,
            writeAt_getD_untouched cap _ (start + 1) xs _ d huntouched]
          have hlt : start % cap < (data.set (start % cap) x).length := by
            rw [List.length_set, hdata]
            exact Nat.mod_lt _ hc
          rw [Nat.add_zero, List.getD_eq_getElem _ d hlt,
            List.getElem_set_self, List.getD_cons_zero]
      | i' + 1 =>
          have hi' : i' < xs.length := by
            simp only [List.length_cons] at hi
            omega
          rw [writeAt, show start + (i' + 1) = start + 1 + i' from by omega,
            ih _ (start + 1) i' (by omega) hi'
              (by rw [List.length_set, hdata]),
            List.getD_cons_succ]

/-- `writeAt` only depends on the start offset modulo the capacity. -/
theorem writeAt_mod_congr (cap : Nat) (data : List Sample) (s s' : Nat)
    (xs : List Sample) (h : s % cap = s' % cap) :
    writeAt cap data s xs = writeAt cap data s' xs := by
  induction xs generalizing data s s' with
  | nil => rfl
  | cons x xs ih =>
      rw [writeAt, writeAt, h]
      exact ih _ _ _ (by rw [← Nat.mod_add_mod, h, Nat.mod_add_mod])

/-- The magic read view, expressed sample by sample at modular physical
offsets (uses the mask identity `a &&& (2^k - 1) = a % 2^k`). -/
theorem read_slice_eq_map (m : MagicRingBuffer) (h : Wf m) :
    m.read_slice = (List.range (m.write_idx - m.read_idx)).map
      (fun i => m.data.getD ((m.read_idx + i) % m.capacity) 0) := by
  obtain ⟨k, hk⟩ := h.hpow
  have hc : 0 < m.capacity := by
    rw [hk]; positivity
  unfold MagicRingBuffer.read_slice
  rw [h.hmask, hk, Nat.and_pow_two_sub_one_eq_mod, ← hk]
  rw [doubled_window m.data 0 m.capacity (m.read_idx % m.capacity)
    (m.write_idx - m.read_idx) h.hlen (Nat.mod_lt _ hc) h.hcap]
  refine List.map_congr_left fun i _ => ?_
  rw [Nat.mod_add_mod]

/-- Length of the readable view is the number of unread samples. -/
theorem read_slice_length (m : MagicRingBuffer) (h : Wf m) :
    m.read_slice.length = m.write_idx - m.read_idx := by
  rw [read_slice_eq_map m h]
  simp

/-- Reading every position of a list through `getD` reproduces the list. -/
theorem range_map_getD (l : List Sample) (d : Sample) :
    (List.range l.length).map (fun i => l.getD i d) = l := by
  apply List.ext_getElem
  · simp
  · intro i h1 h2
    rw [List.getElem_map, List.getElem_range,
      List.getD_eq_getElem l d (by simpa using h1)]

/-- Case analysis for a granted `write_slice`. -/
theorem write_slice_some_iff (m : MagicRingBuffer) (len : Nat)
    (g : Nat × Nat) :
    m.write_slice len = some g ↔
      ¬ (m.capacity - (m.write_idx - m.read_idx) < len) ∧
        g = (m.write_idx &&& m.mask, len) := by
  unfold MagicRingBuffer.write_slice
  split <;> simp_all [eq_comm]

/-- Case analysis for a refused `write_slice`. -/
theorem write_slice_none_iff (m : MagicRingBuffer) (len : Nat) :
    m.write_slice len = none ↔
      m.capacity - (m.write_idx - m.read_idx) < len := by
  unfold MagicRingBuffer.write_slice
  split <;> simp_all

/-- Committing a granted write appends the staged samples to the readable
view: the copy through the doubled mapping lands exactly after the unread
region and touches none of it. -/
theorem read_slice_write_commit (m : MagicRingBuffer) (xs : List Sample)
    (h : Wf m)
    (hroom : (m.write_idx - m.read_idx) + xs.length ≤ m.capacity) :
    ((m.write_at (m.write_idx &&& m.mask) xs).commit_write
        xs.length).read_slice = m.read_slice ++ xs := by
  obtain ⟨k, hk⟩ := h.hpow
  have hc : 0 < m.capacity := by
    rw [hk]; positivity
  have hmaskmod : ∀ a : Nat, a &&& m.mask = a % m.capacity := by
    intro a
    rw [h.hmask, hk, Nat.and_pow_two_sub_one_eq_mod, ← hk]
  have hwr : m.write_idx = m.read_idx + (m.write_idx - m.read_idx) := by
    have := h.hle; omega
  have hwf' : Wf ((m.write_at (m.write_idx &&& m.mask) xs).commit_write
      xs.length) := by
    refine ⟨?_, h.hmask, ⟨k, hk⟩, ?_, ?_⟩
    · show (writeAt m.capacity m.data (m.write_idx &&& m.mask) xs).length
        = m.capacity
      rw [writeAt_length, h.hlen]
    · show m.read_idx ≤ m.write_idx + xs.length
      have := h.hle; omega
    · show m.write_idx + xs.length - m.read_idx ≤ m.capacity
      have := h.hle; omega
  rw [read_slice_eq_map _ hwf', read_slice_eq_map m h]
  show (List.range (m.write_idx + xs.length - m.read_idx)).map
      (fun i => (writeAt m.capacity m.data (m.write_idx &&& m.mask)
        xs).getD ((m.read_idx + i) % m.capacity) 0) = _
  rw [show m.write_idx + xs.length - m.read_idx
      = (m.write_idx - m.read_idx) + xs.length from by have := h.hle; omega]
  rw [List.range_add, List.map_append, List.map_map]
  congr 1
  · refine List.map_congr_left fun i hi => ?_
    rw [List.mem_range] at hi
    refine writeAt_getD_untouched _ _ _ _ _ _ ?_
    intro i' hi' heq
    rw [hmaskmod, Nat.mod_add_mod] at heq
    have hle2 : m.read_idx + i ≤ m.write_idx + i' := by omega
    have hdvd : m.capacity ∣ (m.write_idx + i') - (m.read_idx + i) :=
      (Nat.modEq_iff_dvd' hle2).mp heq.symm
    have hpos : 0 < (m.write_idx + i') - (m.read_idx + i) := by omega
    have hlt2 : (m.write_idx + i') - (m.read_idx + i) < m.capacity := by
      omega
    exact absurd (Nat.le_of_dvd hpos hdvd) (by omega)
  · refine Eq.trans (List.map_congr_left fun j hj => ?_)
      (range_map_getD xs 0)
    rw [List.mem_range] at hj
    show (writeAt m.capacity m.data (m.write_idx &&& m.mask) xs).getD
      ((m.read_idx + ((m.write_idx - m.read_idx) + j)) % m.capacity) 0
      = xs.getD j 0
    rw [show m.read_idx + ((m.write_idx - m.read_idx) + j)
        = m.write_idx + j from by omega]
    rw [show (m.write_idx + j) % m.capacity
        = ((m.write_idx &&& m.mask) + j) % m.capacity from by
      rw [hmaskmod, Nat.mod_add_mod]]
    exact writeAt_getD_hit _ _ _ _ _ _ (by omega) hj h.hlen

/-- The fresh session is legal whenever the capacity is a power of two. -/
theorem sinv_init (c k : Nat) (hc : c = 2 ^ k) : SInv (MSession.init c) := by
  refine ⟨⟨?_, rfl, ⟨k, hc⟩, Nat.le_refl 0, ?_⟩, ?_, ?_⟩
  · simp [MSession.init]
  · simp [MSession.init]
  · intro st xs hpe
    exact absurd hpe (by simp [MSession.init])
  · simp [MSession.init]

/-- One legal step preserves the session invariant, the capacity and the
mask. -/
theorem sinv_step {s s' : MSession} {op : RingOp} {o : RingObs}
    (hinv : SInv s) (hstep : s.step op = some (o, s')) :
    SInv s' ∧ s'.buf.capacity = s.buf.capacity ∧
      s'.buf.mask = s.buf.mask := by
  cases op with
  | wslice xs =>
      cases hg : s.buf.write_slice xs.length with
      | none =>
          simp only [MSession.step, hg, Option.some.injEq,
            Prod.mk.injEq] at hstep
          obtain ⟨-, hs⟩ := hstep
          subst hs
          exact ⟨hinv, rfl, rfl⟩
      | some g =>
          simp only [MSession.step, hg, Option.some.injEq,
            Prod.mk.injEq] at hstep
          obtain ⟨-, hs⟩ := hstep
          subst hs
          rw [write_slice_some_iff] at hg
          obtain ⟨hcond, hgval⟩ := hg
          refine ⟨⟨hinv.wf, ?_, hinv.rdl⟩, rfl, rfl⟩
          intro st ys hpe
          simp only [Option.some.injEq, Prod.mk.injEq] at hpe
          obtain ⟨hst, hys⟩ := hpe
          subst hys
          constructor
          · rw [← hst, hgval]
          · rw [hgval] at hst
            show s.buf.write_idx - s.buf.read_idx + xs.length
              ≤ s.buf.capacity
            have := hinv.wf.hcap
            omega
  | commit =>
      cases hp : s.pending with
      | none =>
          simp only [MSession.step, hp] at hstep
          exact Option.noConfusion hstep
      | some g =>
          obtain ⟨start, xs⟩ := g
          simp only [MSession.step, hp, Option.some.injEq,
            Prod.mk.injEq] at hstep
          obtain ⟨-, hs⟩ := hstep
          subst hs
          obtain ⟨hst, hroom⟩ := hinv.pend start xs hp
          subst hst
          have hwf := hinv.wf
          refine ⟨⟨⟨?_, hwf.hmask, hwf.hpow, ?_, ?_⟩, ?_, ?_⟩, rfl, rfl⟩
          · show (writeAt s.buf.capacity s.buf.data
              (s.buf.write_idx &&& s.buf.mask) xs).length = s.buf.capacity
            rw [writeAt_length, hwf.hlen]
          · show s.buf.read_idx ≤ s.buf.write_idx + xs.length
            have := hwf.hle; omega
          · show s.buf.write_idx + xs.length - s.buf.read_idx
              ≤ s.buf.capacity
            have := hwf.hle; omega
          · intro st ys hpe
            exact absurd hpe (by simp)
          · show s.readable ≤ s.buf.write_idx + xs.length - s.buf.read_idx
            have h1 := hinv.rdl
            have h2 := hwf.hle
            omega
  | rslice =>
      simp only [MSession.step, Option.some.injEq, Prod.mk.injEq] at hstep
      obtain ⟨-, hs⟩ := hstep
      subst hs
      refine ⟨⟨hinv.wf, hinv.pend, ?_⟩, rfl, rfl⟩
      show s.buf.read_slice.length ≤ _
      rw [read_slice_length _ hinv.wf]
  | consume len =>
      simp only [MSession.step] at hstep
      split at hstep
      · rename_i hle
        simp only [Option.some.injEq, Prod.mk.injEq] at hstep
        obtain ⟨-, hs⟩ := hstep
        subst hs
        have hwf := hinv.wf
        have hrd := hinv.rdl
        refine ⟨⟨⟨hwf.hlen, hwf.hmask, hwf.hpow, ?_, ?_⟩, ?_, ?_⟩, rfl, rfl⟩
        · show s.buf.read_idx + len ≤ s.buf.write_idx
          have := hwf.hle; omega
        · show s.buf.write_idx - (s.buf.read_idx + len) ≤ s.buf.capacity
          have := hwf.hcap; omega
        · intro st ys hpe
          obtain ⟨hst, hroom⟩ := hinv.pend st ys hpe
          refine ⟨hst, ?_⟩
          show s.buf.write_idx - (s.buf.read_idx + len) + ys.length
            ≤ s.buf.capacity
          have := hwf.hle
          omega
        · show s.readable - len
            ≤ s.buf.write_idx - (s.buf.read_idx + len)
          have := hwf.hle
          omega
      · simp at hstep

/-- Running any list of legal steps preserves the invariant and the
capacity. -/
theorem sinv_run {s : MSession} (ops : List RingOp) {os : List RingObs}
    {s' : MSession} (hinv : SInv s) (hrun : s.run ops = some (os, s')) :
    SInv s' ∧ s'.buf.capacity = s.buf.capacity := by
  induction ops generalizing s os with
  | nil =>
      simp only [MSession.run, Option.some.injEq, Prod.mk.injEq] at hrun
      obtain ⟨-, hs⟩ := hrun
      subst hs
      exact ⟨hinv, rfl⟩
  | cons op ops ih =>
      cases hst : s.step op with
      | none =>
          simp only [MSession.run, hst, Option.none_bind] at hrun
          exact Option.noConfusion hrun
      | some p =>
          obtain ⟨o1, s1⟩ := p
          cases hr2 : s1.run ops with
          | none =>
              simp only [MSession.run, hst, Option.some_bind, hr2,
                Option.map_none'] at hrun
              exact Option.noConfusion hrun
          | some q =>
              obtain ⟨os2, s2⟩ := q
              simp only [MSession.run, hst, Option.some_bind, hr2,
                Option.map_some', Option.some.injEq, Prod.mk.injEq] at hrun
              obtain ⟨-, hs⟩ := hrun
              subst hs
              obtain ⟨hinv1, hcap1, -⟩ := sinv_step hinv hst
              obtain ⟨hinv2, hcap2⟩ := ih hinv1 hr2
              exact ⟨hinv2, hcap2.trans hcap1⟩

/-- Running a concatenation of op lists runs the pieces in sequence. -/
theorem mrun_append (s : MSession) (pre suf : List RingOp) :
    s.run (pre ++ suf) = (s.run pre).bind fun q =>
      (q.2.run suf).map fun q2 => (q.1 ++ q2.1, q2.2) := by
  induction pre generalizing s with
  | nil =>
      simp only [List.nil_append, MSession.run, Option.some_bind]
      cases s.run suf <;> simp
  | cons op ops ih =>
      simp only [List.cons_append, MSession.run]
      cases hst : s.step op with
      | none => simp
      | some p =>
          simp only [Option.some_bind, List.append_eq]
          rw [ih p.2]
          cases hr : p.2.run ops with
          | none => simp
          | some q =>
              simp only [Option.some_bind, Option.map_some']
              cases hq : q.2.run suf <;> simp

/-- `applyCommand` never depends on the contention pattern: every lock it
takes is a blocking `lock()`, which succeeds regardless of contention. -/
theorem applyCommand_ct_irrel (create : String → Option RNode)
    (ct ct' : LockContention) (rack : List RNode) (cmd : Command) :
    applyCommand create ct rack cmd = applyCommand create ct' rack cmd := rfl

/-- Folding a command batch over the Rack is contention-independent. -/
theorem foldl_applyCommand_ct (create : String → Option RNode)
    (ct ct' : LockContention) (q : List Command) (rack : List RNode) :
    q.foldl (applyCommand create ct) rack
      = q.foldl (applyCommand create ct') rack := by
  induction q generalizing rack with
  | nil => rfl
  | cons c cs ih =>
      rw [List.foldl_cons, List.foldl_cons,
        applyCommand_ct_irrel create ct ct' rack c, ih]

/-- Inductive invariant of the control/callback system: the applied log
followed by the pending queue is exactly the send sequence, and the Rack
is the fold of the applied log. -/
theorem ctl_invariant (create : String → Option RNode)
    (events : List CtlEvent) (s : CtlState)
    (h1 : s.rack = s.applied.foldl
      (applyCommand create ⟨false, false, false⟩) []) :
    ((events.foldl (ctlStep create) s).applied
        ++ (events.foldl (ctlStep create) s).queue
      = s.applied ++ s.queue ++ sentCommands events) ∧
    ((events.foldl (ctlStep create) s).rack
      = (events.foldl (ctlStep create) s).applied.foldl
          (applyCommand create ⟨false, false, false⟩) []) := by
  induction events generalizing s with
  | nil =>
      refine ⟨?_, h1⟩
      simp [sentCommands]
  | cons e es ih =>
      cases e with
      | send c =>
          simp only [List.foldl_cons, ctlStep, sentCommands]
          obtain ⟨ha, hr⟩ := ih { s with queue := s.queue ++ [c] } h1
          refine ⟨?_, hr⟩
          rw [ha]
          simp
      | cycle ct =>
          simp only [List.foldl_cons, ctlStep, sentCommands]
          by_cases hq : tryLockOk ct.in_queue = true
          · rw [if_pos hq]
            have h1' : (CtlState.mk []
                (s.queue.foldl (applyCommand create ct) s.rack)
                (s.applied ++ s.queue)).rack
                = ((s.applied ++ s.queue).foldl
                    (applyCommand create ⟨false, false, false⟩) []) := by
              show s.queue.foldl (applyCommand create ct) s.rack = _
              rw [List.foldl_append, ← h1,
                foldl_applyCommand_ct create ct ⟨false, false, false⟩]
            obtain ⟨ha, hr⟩ := ih _ h1'
            refine ⟨?_, hr⟩
            rw [ha]
            simp
          · rw [if_neg hq]
            exact ih s h1

/-! ### Claim theorems -/

/-- C1: Ring capacity invariant.  For every legal sequence of
`write_slice`/`commit_write`/`read_slice`/`consume` calls — legality
meaning each `commit_write(len)` consumes the grant of its own earlier
successful `write_slice(len)` and each `consume(len)` stays within the
not-yet-consumed remainder of the length returned by the most recent
`read_slice` — the indices satisfy `R ≤ W` and `W - R ≤ C` at every point:
both in the final state of the run and in the state reached after every
prefix of the run. -/
theorem ring_capacity_invariant (c k : Nat) (ops : List RingOp)
    (os : List RingObs) (s' : MSession) (hc : c = 2 ^ k)
    (hrun : (MSession.init c).run ops = some (os, s')) :
    (s'.buf.read_idx ≤ s'.buf.write_idx ∧
      s'.buf.write_idx - s'.buf.read_idx ≤ c) ∧
    ∀ pre suf, ops = pre ++ suf →
      ∃ os₁ s₁, (MSession.init c).run pre = some (os₁, s₁) ∧
        s₁.buf.read_idx ≤ s₁.buf.write_idx ∧
        s₁.buf.write_idx - s₁.buf.read_idx ≤ c := by
  have hfinal : ∀ (ops₂ : List RingOp) (os₂ : List RingObs) (s₂ : MSession),
      (MSession.init c).run ops₂ = some (os₂, s₂) →
      s₂.buf.read_idx ≤ s₂.buf.write_idx ∧
        s₂.buf.write_idx - s₂.buf.read_idx ≤ c := by
    intro ops₂ os₂ s₂ hrun₂
    obtain ⟨hinv, hcap⟩ := sinv_run ops₂ (sinv_init c k hc) hrun₂
    refine ⟨hinv.wf.hle, ?_⟩
    have h2 := hinv.wf.hcap
    rw [hcap] at h2
    simpa [MSession.init] using h2
  refine ⟨hfinal ops os s' hrun, ?_⟩
  intro pre suf hsplit
  subst hsplit
  rw [mrun_append] at hrun
  cases hq : (MSession.init c).run pre with
  | none => rw [hq] at hrun; exact Option.noConfusion hrun
  | some q =>
      obtain ⟨os₁, s₁⟩ := q
      exact ⟨os₁, s₁, rfl, hfinal pre os₁ s₁ hq⟩

/-- Witness for C1: a concrete legal run (grant, commit, read, partial
consume) on a capacity-4 buffer, evaluated in full, with the invariant at
its final state obtained from `ring_capacity_invariant`. -/
theorem ring_capacity_invariant_witness :
    ((MSession.init 4).run
        [RingOp.wslice [1, 2, 3], RingOp.commit, RingOp.rslice,
          RingOp.consume 2]
      = some ([RingObs.granted true, RingObs.committed,
            RingObs.seen [1, 2, 3], RingObs.consumed],
          { buf := { data := [1, 2, 3, 0], capacity := 4, mask := 3,
                     read_idx := 2, write_idx := 3 },
            pending := none, readable := 1 })) ∧
    ((2 : Nat) ≤ 3 ∧ (3 : Nat) - 2 ≤ 4) := by
  refine ⟨by decide, ?_⟩
  exact (ring_capacity_invariant 4 2
    [RingOp.wslice [1, 2, 3], RingOp.commit, RingOp.rslice,
      RingOp.consume 2]
    [RingObs.granted true, RingObs.committed, RingObs.seen [1, 2, 3],
      RingObs.consumed]
    { buf := { data := [1, 2, 3, 0], capacity := 4, mask := 3,
               read_idx := 2, write_idx := 3 },
      pending := none, readable := 1 }
    rfl (by decide)).1

/-- C2: `write_slice(len)` returns no region exactly when the available
room `C - (W - R)` is strictly less than `len` (equivalently when
`(W - R) + len` exceeds `C`), and a granted region always has exactly
`len` samples — never a partial grant.  The call itself is a pure query:
it produces no state change (the model returns only the granted region),
so the buffer is unchanged in the failure case; the failure branch of
`push_samples` (claim C6) exhibits the unchanged buffer at the one call
site that commits. -/
theorem write_slice_no_room (m : MagicRingBuffer) (len : Nat) (hwf : Wf m) :
    (m.write_slice len = none ↔
      m.capacity < (m.write_idx - m.read_idx) + len) ∧
    (∀ g, m.write_slice len = some g → g.2 = len ∧
      (m.write_idx - m.read_idx) + len ≤ m.capacity) := by
  have hcap := hwf.hcap
  constructor
  · rw [write_slice_none_iff]
    omega
  · intro g hg
    rw [write_slice_some_iff] at hg
    obtain ⟨hcond, hgval⟩ := hg
    subst hgval
    exact ⟨rfl, by omega⟩

/-- Witness for C2: on a full-room capacity-4 buffer, a request of 5 is
refused (5 exceeds the room) and a request of 3 is granted with exactly 3
samples. -/
theorem write_slice_no_room_witness :
    ((MagicRingBuffer.mk [0, 0, 0, 0] 4 3 0 0).write_slice 5 = none ↔
      4 < 0 - 0 + 5) ∧
    (((0 : Nat) &&& 3, 3).2 = 3 ∧ (0 : Nat) - 0 + 3 ≤ 4) := by
  have hwf : Wf (MagicRingBuffer.mk [0, 0, 0, 0] 4 3 0 0) :=
    ⟨rfl, rfl, ⟨2, rfl⟩, by decide, by decide⟩
  refine ⟨(write_slice_no_room _ 5 hwf).1, ?_⟩
  exact (write_slice_no_room _ 3 hwf).2 ((0 : Nat) &&& 3, 3) (by decide)

/-- C9: `MagicRingBuffer::new` returns an error for every capacity that is
not a power of two — in particular for capacity 0, so a zero-capacity
buffer can never be constructed — and the power-of-two check passes for
every capacity `2^k`. -/
theorem new_rejects_non_pow2 :
    (∀ c, (MagicRingBuffer.new c).isOk = true ↔ ∃ k, c = 2 ^ k) ∧
    (MagicRingBuffer.new 0).isOk = false := by
  have hok : ∀ c, (MagicRingBuffer.new c).isOk = isPowerOfTwo c := by
    intro c
    unfold MagicRingBuffer.new
    cases h : isPowerOfTwo c <;> simp [h, Except.isOk, Except.toBool]
  constructor
  · intro c
    rw [hok c, isPowerOfTwo_iff_pow]
  · rw [hok 0]
    simp [isPowerOfTwo]

/-- C8: `stop()` is idempotent — calling it when the engine is already
stopped is safe and leaves it stopped — and modifies only the active
stream handle and the running flag: the Rack, the ring buffer with its
contents and indices, the command queue, the sample rate and the buffer
size are unchanged. -/
theorem stop_idempotent_frame (w : EngineWorld) :
    w.stop.stop = w.stop ∧
    w.stop.engine.is_running = false ∧
    w.stop.active_stream = none ∧
    w.stop.engine.nodes = w.engine.nodes ∧
    w.stop.engine.buffer = w.engine.buffer ∧
    w.stop.engine.command_queue = w.engine.command_queue ∧
    w.stop.engine.sample_rate = w.engine.sample_rate ∧
    w.stop.engine.buffer_size = w.engine.buffer_size :=
  ⟨rfl, rfl, rfl, rfl, rfl, rfl, rfl, rfl⟩

/-- C10: a set-parameter command reaching a Rack that contains several
nodes with the target id forwards the payload only to the first matching
node in Rack order; every other node (including later duplicates), the
Rack's length and its order are unchanged; and with no matching node the
Rack is completely unchanged. -/
theorem set_param_first_match_only (pre post : List RNode) (n : RNode)
    (nid pid : Nat) (pl : List Nat)
    (hpre : ∀ m ∈ pre, m.id ≠ nid) (hn : n.id = nid) :
    (applySetParam nid pid pl (pre ++ n :: post)
      = pre ++ n.set_param pid pl :: post) ∧
    ∀ l : List RNode, (∀ m ∈ l, m.id ≠ nid) →
      applySetParam nid pid pl l = l := by
  constructor
  · induction pre with
    | nil =>
        simp only [List.nil_append, applySetParam]
        rw [if_pos (by simp [hn])]
    | cons p ps ih =>
        simp only [List.cons_append, applySetParam, List.append_eq]
        rw [if_neg (by simp [hpre p (List.mem_cons_self p ps)])]
        rw [ih (fun m hm => hpre m (List.mem_cons_of_mem p hm))]
  · intro l hl
    induction l with
    | nil => rfl
    | cons p ps ih =>
        simp only [applySetParam]
        rw [if_neg (by simp [hl p (List.mem_cons_self p ps)])]
        rw [ih (fun m hm => hl m (List.mem_cons_of_mem p hm))]

/-- Witness for C10: Rack `[id 1, id 7, id 7]`, target id 7: only the
first id-7 node records the parameter, the duplicate after it and the
non-matching node before it are untouched; on the no-match Rack `[id 1]`
nothing changes. -/
theorem set_param_first_match_only_witness :
    (applySetParam 7 5 [9]
        ([⟨1, "a", []⟩] ++ ⟨7, "b", []⟩ :: [⟨7, "c", []⟩])
      = [⟨1, "a", []⟩] ++ RNode.set_param ⟨7, "b", []⟩ 5 [9] :: [⟨7, "c", []⟩]) ∧
    applySetParam 7 5 [9] [⟨1, "a", []⟩] = [⟨1, "a", []⟩] := by
  have h := set_param_first_match_only [⟨1, "a", []⟩] [⟨7, "c", []⟩]
    ⟨7, "b", []⟩ 7 5 [9] (by decide) rfl
  exact ⟨h.1, h.2 [⟨1, "a", []⟩] (by decide)⟩

/-- C6: `push_samples` is all-or-nothing: with insufficient room it
returns 0 and leaves the ring buffer — contents and both indices —
entirely unchanged; with sufficient room it accepts every sample, commits
(the readable view becomes the old view followed by the pushed samples,
the write index advances by the full length) and returns the full
length. -/
theorem push_samples_all_or_nothing (m : MagicRingBuffer)
    (xs : List Sample) (hwf : Wf m) :
    (m.capacity < (m.write_idx - m.read_idx) + xs.length →
      push_samples m xs = (0, m)) ∧
    ((m.write_idx - m.read_idx) + xs.length ≤ m.capacity →
      (push_samples m xs).1 = xs.length ∧
      (push_samples m xs).2.read_slice = m.read_slice ++ xs ∧
      (push_samples m xs).2.read_idx = m.read_idx ∧
      (push_samples m xs).2.write_idx = m.write_idx + xs.length ∧
      (push_samples m xs).2.capacity = m.capacity ∧
      (push_samples m xs).2.mask = m.mask) := by
  constructor
  · intro hover
    have hnone : m.write_slice xs.length = none := by
      rw [write_slice_none_iff]
      have := hwf.hcap
      omega
    simp only [push_samples, hnone]
  · intro hroom
    have hsome : m.write_slice xs.length
        = some (m.write_idx &&& m.mask, xs.length) := by
      rw [write_slice_some_iff]
      exact ⟨by omega, rfl⟩
    have hpush : push_samples m xs = (xs.length,
        (m.write_at (m.write_idx &&& m.mask) xs).commit_write xs.length) := by
      simp only [push_samples, hsome]
    rw [hpush]
    exact ⟨rfl, read_slice_write_commit m xs hwf hroom, rfl, rfl, rfl, rfl⟩

/-- Witness for C6: a capacity-4 buffer holding 2 unread samples rejects a
push of 3 unchanged, and accepts a push of 2 whose samples then follow the
old view. -/
theorem push_samples_all_or_nothing_witness :
    (push_samples (MagicRingBuffer.mk [5, 6, 0, 0] 4 3 0 2) [7, 8, 9]
      = (0, MagicRingBuffer.mk [5, 6, 0, 0] 4 3 0 2)) ∧
    (push_samples (MagicRingBuffer.mk [5, 6, 0, 0] 4 3 0 2) [7, 8]).1 = 2 ∧
    (push_samples (MagicRingBuffer.mk [5, 6, 0, 0] 4 3 0 2) [7, 8]).2.read_slice
      = (MagicRingBuffer.mk [5, 6, 0, 0] 4 3 0 2).read_slice ++ [7, 8] := by
  have hwf : Wf (MagicRingBuffer.mk [5, 6, 0, 0] 4 3 0 2) :=
    ⟨rfl, rfl, ⟨2, rfl⟩, by decide, by decide⟩
  have h1 := (push_samples_all_or_nothing
    (MagicRingBuffer.mk [5, 6, 0, 0] 4 3 0 2) [7, 8, 9] hwf).1 (by decide)
  have h2 := (push_samples_all_or_nothing
    (MagicRingBuffer.mk [5, 6, 0, 0] 4 3 0 2) [7, 8] hwf).2 (by decide)
  exact ⟨h1, h2.1, h2.2.1⟩

/-- C3: with a hardware output buffer of length `N` and `A = W - R`
available samples, the callback's audio stage writes the first
`min N A` available samples to the output, fills the remaining
`N - min N A` positions with exact zeros (underflow is silence, not an
error), and advances the read index by exactly `min N A`; the buffer
contents and write index are untouched. -/
theorem callback_underflow_zero_fill (m : MagicRingBuffer)
    (output : List Sample) (hwf : Wf m) :
    ((callback_audio m output).1
      = m.read_slice.take (min output.length (m.write_idx - m.read_idx))
        ++ List.replicate
          (output.length - min output.length (m.write_idx - m.read_idx))
          0) ∧
    (callback_audio m output).1.length = output.length ∧
    (callback_audio m output).2.read_idx
      = m.read_idx + min output.length (m.write_idx - m.read_idx) ∧
    (callback_audio m output).2.write_idx = m.write_idx ∧
    (callback_audio m output).2.data = m.data := by
  have hlen := read_slice_length m hwf
  have hout1 : (callback_audio m output).1
      = m.read_slice.take (min output.length (m.write_idx - m.read_idx))
        ++ List.replicate
          (output.length - min output.length (m.write_idx - m.read_idx))
          0 := by
    simp only [callback_audio, hlen]
    by_cases h : min output.length (m.write_idx - m.read_idx)
        < output.length
    · rw [if_pos h]
      congr 1
      have htl : (m.read_slice.take
          (min output.length (m.write_idx - m.read_idx))).length
          = min output.length (m.write_idx - m.read_idx) := by
        rw [List.length_take, hlen]
        omega
      exact List.take_left' htl
    · rw [if_neg h]
      have hN : min output.length (m.write_idx - m.read_idx)
          = output.length := by omega
      rw [hN, List.drop_length]
      simp
  refine ⟨hout1, ?_, ?_, rfl, rfl⟩
  · rw [hout1]
    have := read_slice_length m hwf
    simp only [List.length_append, List.length_take,
      List.length_replicate, this]
    omega
  · show m.read_idx + min output.length m.read_slice.length = _
    rw [hlen]

/-- Witness for C3: a buffer with 2 available samples `[5, 6]` and a
3-sample output: the output is `[5, 6]` followed by one exact zero and
the read index advances by 2. -/
theorem callback_underflow_zero_fill_witness :
    ((callback_audio (MagicRingBuffer.mk [5, 6, 0, 0] 4 3 0 2)
        [9, 9, 9]).1 = [5, 6, 0]) ∧
    (callback_audio (MagicRingBuffer.mk [5, 6, 0, 0] 4 3 0 2)
        [9, 9, 9]).1.length = 3 ∧
    (callback_audio (MagicRingBuffer.mk [5, 6, 0, 0] 4 3 0 2)
        [9, 9, 9]).2.read_idx = 2 := by
  have hwf : Wf (MagicRingBuffer.mk [5, 6, 0, 0] 4 3 0 2) :=
    ⟨rfl, rfl, ⟨2, rfl⟩, by decide, by decide⟩
  have h := callback_underflow_zero_fill
    (MagicRingBuffer.mk [5, 6, 0, 0] 4 3 0 2) [9, 9, 9] hwf
  refine ⟨?_, h.2.1, h.2.2.1⟩
  rw [h.1]
  decide

/-- C4: commands from a single control thread are applied in the exact
order sent: after any sequence of sends and callback cycles, the applied
log followed by the still-queued commands equals the send sequence (so
nothing is dropped or reordered by queue contention alone), the Rack is
the in-order fold of the applied log, and a cycle whose queue `try_lock`
fails applies zero commands and leaves the whole batch intact. -/
theorem command_fifo_deferred_intact (create : String → Option RNode)
    (events : List CtlEvent) :
    ((events.foldl (ctlStep create) ⟨[], [], []⟩).applied
        ++ (events.foldl (ctlStep create) ⟨[], [], []⟩).queue
      = sentCommands events) ∧
    ((events.foldl (ctlStep create) ⟨[], [], []⟩).rack
      = (events.foldl (ctlStep create) ⟨[], [], []⟩).applied.foldl
          (applyCommand create ⟨false, false, false⟩) []) ∧
    (∀ (st : CtlState) (pm rk : Bool),
      ctlStep create st (.cycle ⟨true, pm, rk⟩) = st) := by
  obtain ⟨ha, hr⟩ := ctl_invariant create events ⟨[], [], []⟩ rfl
  refine ⟨by simpa using ha, hr, ?_⟩
  intro st pm rk
  rfl

/-- C5 counterexample: one callback cycle on queue `[add-node]` while the
Rack mutex is contended.  The claim predicts the add-node interaction is
skipped and the created node silently not attached (Rack left empty); the
source's blocking `lock()` on the Rack attaches it regardless, so the
resulting Rack is not empty. -/
theorem blocking_rack_append_counterexample :
    (drainAndApply (fun nm => some ⟨1, nm, []⟩)
        ⟨false, false, true⟩
        [Command.new 0 "osc" [] 0 0 0 .ACTIVE] []).2 ≠ [] := by
  decide

/-- C5 amended: within the command path only the inbound-queue drain is a
non-blocking attempt — on queue contention the whole cycle applies nothing
and defers the batch — while the plugin-manager and Rack acquisitions
inside the add-node handler and the Rack acquisition inside the
set-parameter handler are blocking `lock()` calls that proceed despite
contention, so the drain's behaviour is completely independent of
plugin-manager and Rack contention. -/
theorem drain_lock_discipline (create : String → Option RNode)
    (q : List Command) (rack : List RNode) (iq pm pm' rk rk' : Bool) :
    (drainAndApply create ⟨iq, pm, rk⟩ q rack
      = drainAndApply create ⟨iq, pm', rk'⟩ q rack) ∧
    drainAndApply create ⟨true, pm, rk⟩ q rack = (q, rack) := by
  constructor
  · unfold drainAndApply
    by_cases h : tryLockOk iq = true
    · rw [if_pos h, if_pos h,
        foldl_applyCommand_ct create ⟨iq, pm, rk⟩ ⟨iq, pm', rk'⟩]
    · rw [if_neg h, if_neg h]
  · rfl

/-- The fresh sessions are in simulation for any power-of-two capacity. -/
theorem sim_init (c k : Nat) (hc : c = 2 ^ k) :
    Sim (MSession.init c) (RSession.init c) :=
  ⟨sinv_init c k hc, rfl, rfl, rfl, rfl, rfl, rfl⟩

/-- One protocol step preserves the simulation: either both sessions
refuse the step, or both produce the same observation and stay related. -/
theorem sim_step {ms : MSession} {rs : RSession} (hsim : Sim ms rs)
    (op : RingOp) :
    (ms.step op = none ∧ rs.step op = none) ∨
    (∃ o ms' rs', ms.step op = some (o, ms') ∧ rs.step op = some (o, rs')
      ∧ Sim ms' rs') := by
  obtain ⟨k, hk⟩ := hsim.inv.wf.hpow
  cases op with
  | wslice xs =>
      right
      by_cases hcond : ms.buf.capacity
          - (ms.buf.write_idx - ms.buf.read_idx) < xs.length
      · have hmn : ms.buf.write_slice xs.length = none :=
          (write_slice_none_iff _ _).mpr hcond
        refine ⟨.granted false, ms, rs, ?_, ?_, hsim⟩
        · simp only [MSession.step, hmn]
        · simp only [RSession.step, hsim.hcap, hsim.hw, hsim.hr,
            if_pos hcond]
      · have hms : ms.buf.write_slice xs.length
            = some (ms.buf.write_idx &&& ms.buf.mask, xs.length) :=
          (write_slice_some_iff _ _ _).mpr ⟨hcond, rfl⟩
        have hstepm : ms.step (.wslice xs) = some (.granted true,
            { ms with
              pending := some (ms.buf.write_idx &&& ms.buf.mask, xs) }) := by
          simp only [MSession.step, hms]
        refine ⟨.granted true,
          { ms with
            pending := some (ms.buf.write_idx &&& ms.buf.mask, xs) },
          { rs with pending := some xs }, hstepm, ?_, ?_⟩
        · simp only [RSession.step, hsim.hcap, hsim.hw, hsim.hr,
            if_neg hcond]
        · exact ⟨(sinv_step hsim.inv hstepm).1, hsim.hcap, hsim.hstore,
            hsim.hw, hsim.hr, rfl, hsim.hread⟩
  | commit =>
      cases hp : ms.pending with
      | none =>
          left
          have hrp : rs.pending = none := by
            rw [hsim.hpend, hp]
            rfl
          constructor
          · simp only [MSession.step, hp]
          · simp only [RSession.step, hrp]
      | some g =>
          obtain ⟨start, xs⟩ := g
          right
          have hrp : rs.pending = some xs := by
            rw [hsim.hpend, hp]
            rfl
          obtain ⟨hst, hroom⟩ := hsim.inv.pend start xs hp
          have hstepm : ms.step .commit = some (.committed,
              { ms with
                buf := (ms.buf.write_at start xs).commit_write xs.length,
                pending := none }) := by
            simp only [MSession.step, hp]
          refine ⟨.committed, _,
            { rs with buf := rs.buf.modWrite xs, pending := none },
            hstepm, ?_, ?_⟩
          · simp only [RSession.step, hrp]
          · refine ⟨(sinv_step hsim.inv hstepm).1, hsim.hcap, ?_, ?_,
              hsim.hr, rfl, hsim.hread⟩
            · show writeAt rs.buf.capacity rs.buf.store rs.buf.w xs
                = writeAt ms.buf.capacity ms.buf.data start xs
              rw [hsim.hcap, hsim.hstore, hsim.hw, hst]
              apply writeAt_mod_congr
              rw [hsim.inv.wf.hmask, hk, Nat.and_pow_two_sub_one_eq_mod,
                ← hk, Nat.mod_mod_of_dvd _ (dvd_refl ms.buf.capacity)]
            · show rs.buf.w + xs.length = ms.buf.write_idx + xs.length
              rw [hsim.hw]
  | rslice =>
      right
      have hobs : rs.buf.readList = ms.buf.read_slice := by
        rw [read_slice_eq_map ms.buf hsim.inv.wf]
        unfold RefRing.readList
        rw [hsim.hcap, hsim.hstore, hsim.hw, hsim.hr]
      have hstepm : ms.step .rslice = some (.seen ms.buf.read_slice,
          { ms with readable := ms.buf.read_slice.length }) := rfl
      refine ⟨.seen ms.buf.read_slice,
        { ms with readable := ms.buf.read_slice.length },
        { rs with readable := rs.buf.readList.length }, hstepm, ?_, ?_⟩
      · simp only [RSession.step, hobs]
      · exact ⟨(sinv_step hsim.inv hstepm).1, hsim.hcap, hsim.hstore,
          hsim.hw, hsim.hr, hsim.hpend, by rw [hobs]⟩
  | consume len =>
      by_cases hle : len ≤ ms.readable
      · right
        have hstepm : ms.step (.consume len) = some (.consumed,
            { ms with buf := ms.buf.consume len,
                      readable := ms.readable - len }) := by
          simp only [MSession.step, if_pos hle]
        have hle' : len ≤ rs.readable := by
          rw [hsim.hread]
          exact hle
        refine ⟨.consumed, _,
          { rs with buf := { rs.buf with r := rs.buf.r + len },
                    readable := rs.readable - len }, hstepm, ?_, ?_⟩
        · simp only [RSession.step, if_pos hle']
        · refine ⟨(sinv_step hsim.inv hstepm).1, hsim.hcap, hsim.hstore,
            hsim.hw, ?_, hsim.hpend, ?_⟩
          · show rs.buf.r + len = ms.buf.read_idx + len
            rw [hsim.hr]
          · show rs.readable - len = ms.readable - len
            rw [hsim.hread]
      · left
        have hle' : ¬ len ≤ rs.readable := by
          rw [hsim.hread]
          exact hle
        constructor
        · simp only [MSession.step, if_neg hle]
        · simp only [RSession.step, if_neg hle']

/-- Related sessions produce identical observation sequences on every op
list (and fail together on illegal ones). -/
theorem sim_run {ms : MSession} {rs : RSession} (hsim : Sim ms rs)
    (ops : List RingOp) :
    (ms.run ops).map Prod.fst = (rs.run ops).map Prod.fst := by
  induction ops generalizing ms rs with
  | nil => rfl
  | cons op ops ih =>
      rcases sim_step hsim op with ⟨hm, hrn⟩ | ⟨o, ms', rs', hm, hrn, hsim'⟩
      · simp [MSession.run, RSession.run, hm, hrn]
      · simp only [MSession.run, RSession.run, hm, hrn, Option.some_bind]
        have hih := ih hsim'
        cases hm2 : ms'.run ops with
        | none =>
            rw [hm2] at hih
            cases hr2 : rs'.run ops with
            | none => simp
            | some q2 =>
                rw [hr2] at hih
                simp at hih
        | some q =>
            rw [hm2] at hih
            cases hr2 : rs'.run ops with
            | none =>
                rw [hr2] at hih
                simp at hih
            | some q2 =>
                rw [hr2] at hih
                simp only [Option.map_some', Option.some.injEq] at hih ⊢
                rw [hih]

/-- C7: wrap correctness.  For every legal sequence of writes and reads on
a power-of-two-capacity buffer — including sequences whose accesses cross
the logical end of the storage — the doubly-mapped contiguous-slice
implementation produces exactly the same observations (grant decisions and
sample values read) as the naive reference ring buffer with modular
indexing, started from the same initial state. -/
theorem magic_ring_refines_modular (c k : Nat) (ops : List RingOp)
    (hc : c = 2 ^ k) :
    ((MSession.init c).run ops).map Prod.fst
      = ((RSession.init c).run ops).map Prod.fst :=
  sim_run (sim_init c k hc) ops

/-- Witness for C7: the spec's wrap example on capacity 16 — write 10,
consume 10, then write 12 spanning the wrap — yields identical
observations on both buffers, and the run is legal (it succeeds). -/
theorem magic_ring_refines_modular_witness :
    (((MSession.init 16).run wrapOps).map Prod.fst
      = ((RSession.init 16).run wrapOps).map Prod.fst) ∧
    ((MSession.init 16).run wrapOps).isSome = true := by
  refine ⟨magic_ring_refines_modular 16 4 wrapOps rfl, ?_⟩
  decide

end OpenTune
